import Mathlib

/-!
Shallow embedding of the probabilistic state-machine core
(`ceam/state_machine.py`) and the component lifecycle registration logic
(`src/vivarium/component.py`) of the vivarium repository, together with
proofs of the specification's claims about them.

Modelling conventions:
* A pandas `DataFrame` of agents is a `Cohort`: its column names plus a list
  of rows.  Each `Row` carries the pandas index label (`idx`, the agent's
  identity), its value in the machine's governing state column (`state`),
  and a stand-in for the remaining columns' data (`data`).
* Machine floats are modelled by `ℚ` (exact arithmetic; the claims under
  study are about order/threshold comparisons and exact sums, not rounding).
* Python exceptions are modelled by `Except String`.
* `ceam.util.get_draw` is not part of the sources.  Modelled from the spec:
  the draw stream is a pure function of the agent's identity (simulation
  step and draw context are fixed within one invocation), passed as a
  parameter `draw : Nat → ℚ`.
-/

/-- Decidable equality of `Except` results, for evaluating the model on
concrete inputs. -/
instance {ε α : Type} [DecidableEq ε] [DecidableEq α] : DecidableEq (Except ε α) :=
  fun x y =>
    match x, y with
    | .ok a, .ok b =>
      if h : a = b then .isTrue (by rw [h]) else .isFalse (by simp [h])
    | .error a, .error b =>
      if h : a = b then .isTrue (by rw [h]) else .isFalse (by simp [h])
    | .ok _, .error _ => .isFalse (by simp)
    | .error _, .ok _ => .isFalse (by simp)

/-- A row of the population table: the pandas index label identifying the
agent, the agent's value in the machine's state column, and a stand-in for
all other columns. -/
structure Row where
  idx : Nat
  state : String
  data : Int
deriving DecidableEq

/-- A pandas DataFrame of agents: its column names (the schema) and rows. -/
structure Cohort where
  cols : List String
  rows : List Row
deriving DecidableEq

/-- A reference to a `State` object of `ceam/state_machine.py`: `oid` models
Python object identity (used for dict keys, since `State` defines neither
`__eq__` nor `__hash__`), and `state_id` is the state's identifier.  The
base class's `_transition_side_effect` returns its argument unchanged, so a
target state's behaviour is determined by this data. -/
structure StateRef where
  oid : Nat
  state_id : String
deriving DecidableEq

/-- A key of the dictionary built by `TransitionSet.groupby_new_state`:
either a target `State` object or the string `'null_transition'`. -/
inductive Outcome where
  | state (s : StateRef)
  | null
deriving DecidableEq

/-- `Transition.__init__`: a target state and a probability function from
the cohort to one probability per agent position.  The Python function
returns a numpy array indexed by position in the cohort; here it is a
function of the cohort and the position. -/
structure Transition where
  output : StateRef
  probability : Cohort → Nat → ℚ

/-- The default `probability_func` of `Transition.__init__`:
`lambda agents: np.full(len(agents), 1, dtype=float)`. -/
def defaultProbabilityFunc : Cohort → Nat → ℚ := fun _ _ => 1

/-- `TransitionSet`: a list of transitions plus the `allow_null_transition`
flag. -/
structure TransitionSet where
  allow_null_transition : Bool
  transitions : List Transition

/-- The per-agent probabilities at cohort position `p`, one per transition
(the columns of the numpy array built in `groupby_new_state`). -/
def perAgentProbs (ts : TransitionSet) (agents : Cohort) (p : Nat) : List ℚ :=
  ts.transitions.map (fun t => t.probability agents p)

/-- `total = np.sum(probabilities, axis=0)` at cohort position `p`. -/
def totalProb (ts : TransitionSet) (agents : Cohort) (p : Nat) : ℚ :=
  (perAgentProbs ts agents p).sum

/-- `probabilities /= total` at cohort position `p` (the
`allow_null_transition == False` branch). -/
def normalizedProbs (ts : TransitionSet) (agents : Cohort) (p : Nat) : List ℚ :=
  (perAgentProbs ts agents p).map (fun q => q / totalProb ts agents p)

/-- The per-agent outcome probability column after the branch on
`allow_null_transition`: either normalized, or extended with the null
transition's probability `1 - total`. -/
def outcomeProbs (ts : TransitionSet) (agents : Cohort) (p : Nat) : List ℚ :=
  if ts.allow_null_transition then
    perAgentProbs ts agents p ++ [1 - totalProb ts agents p]
  else
    normalizedProbs ts agents p

/-- The ordered outcome list: declared transitions in declaration order,
with `'null_transition'` appended when null transitions are allowed. -/
def outcomesList (ts : TransitionSet) : List Outcome :=
  if ts.allow_null_transition then
    ts.transitions.map (fun t => Outcome.state t.output) ++ [Outcome.null]
  else
    ts.transitions.map (fun t => Outcome.state t.output)

/-- `probabilities.cumsum(axis=0)` for one agent: the running prefix sums. -/
def cumsum : List ℚ → List ℚ
  | [] => []
  | q :: qs => q :: (cumsum qs).map (fun s => q + s)

/-- The cumulative-probability column of one agent. -/
def agentSums (ts : TransitionSet) (agents : Cohort) (p : Nat) : List ℚ :=
  cumsum (outcomeProbs ts agents p)

/-- `(draw >= sums).sum(axis=0)` for one agent: the number of cumulative
thresholds that are `≤` the draw. -/
def outputIndexOf (ts : TransitionSet) (draw : Nat → ℚ) (agents : Cohort)
    (p : Nat) (r : Row) : Nat :=
  (agentSums ts agents p).countP (fun s => decide (s ≤ draw r.idx))

/-- The outcome index of every agent, in cohort order. -/
def outputIndexes (ts : TransitionSet) (draw : Nat → ℚ) (agents : Cohort) :
    List Nat :=
  agents.rows.enum.map (fun pr => outputIndexOf ts draw agents pr.1 pr.2)

/-- Insert a key into an ascending duplicate-free list of keys. -/
def insertKey (k : Nat) : List Nat → List Nat
  | [] => [k]
  | x :: xs =>
    if k < x then k :: x :: xs
    else if k = x then x :: xs
    else x :: insertKey k xs

/-- The distinct group keys in ascending order, as produced by
`agents.groupby(output_indexes)` (pandas sorts group keys). -/
def sortedKeys (l : List Nat) : List Nat :=
  l.foldr insertKey []

/-- `agents.groupby(output_indexes)`: for each distinct index value in
ascending order, the rows carrying it, in original row order. -/
def groupsOf (indexes : List Nat) (rows : List Row) : List (Nat × List Row) :=
  let pairs := indexes.zip rows
  (sortedKeys (pairs.map (fun pr => pr.1))).map
    (fun k => (k, (pairs.filter (fun pr => decide (pr.1 = k))).map (fun pr => pr.2)))

/-- Python dict assignment `d[k] = v`: overwrite the value if the key is
present (keeping its position), else append the new entry. -/
def dictInsert (d : List (Outcome × List Row)) (k : Outcome) (v : List Row) :
    List (Outcome × List Row) :=
  if d.any (fun e => decide (e.1 = k)) then
    d.map (fun e => if e.1 = k then (k, v) else e)
  else
    d ++ [(k, v)]

/-- The dict comprehension `{outputs[i]: sub_group for i, sub_group in
groups}`.  Every key must index into `outputs`; Python raises `IndexError`
otherwise (here the bound check is hoisted before the build, which is
observationally the same: either way no dictionary is returned). -/
def buildGroupDict (outputs : List Outcome) (groups : List (Nat × List Row)) :
    Except String (List (Outcome × List Row)) :=
  if groups.all (fun kg => decide (kg.1 < outputs.length)) then
    .ok (groups.foldl (fun d kg => dictInsert d (outputs.getD kg.1 Outcome.null) kg.2) [])
  else
    .error "IndexError: list index out of range"

/-- `TransitionSet.groupby_new_state`.  With an empty transition set the
Python `zip(*[...])` unpacking raises; `State.next_state` only calls this
with a non-empty set. -/
def groupbyNewState (ts : TransitionSet) (draw : Nat → ℚ) (agents : Cohort) :
    Except String (List (Outcome × List Row)) :=
  if ts.transitions.isEmpty then
    .error "not enough values to unpack"
  else if ts.allow_null_transition &&
      (List.range agents.rows.length).any
        (fun p => decide (1 < totalProb ts agents p)) then
    .error "Total transition probability greater than 1"
  else
    buildGroupDict (outcomesList ts) (groupsOf (outputIndexes ts draw agents) agents.rows)

/-- A `State` of `ceam/state_machine.py`: its identity data and its
transition set. -/
structure State where
  ref : StateRef
  transition_set : TransitionSet

/-- `State.transition_effect`: overwrite the state column with the target's
identifier.  The base class's `_transition_side_effect` then returns the
sub-cohort unchanged. -/
def transitionEffect (target : StateRef) (g : List Row) : List Row :=
  g.map (fun r => { r with state := target.state_id })

/-- `str(key)` for the keys of the groups dictionary:
`'State("{state_id}" ...)'` for a state, `'null_transition'` for the null
marker (this is the sort key used by `State.next_state`). -/
def outcomeStr : Outcome → String
  | .state s => "State(\"" ++ s.state_id ++ "\" ...)"
  | .null => "null_transition"

/-- Python string comparison: lexicographic on code points. -/
def charListLe : List Char → List Char → Bool
  | [], _ => true
  | _ :: _, [] => false
  | a :: as, b :: bs =>
    if a.toNat < b.toNat then true
    else if b.toNat < a.toNat then false
    else charListLe as bs

/-- `s <= t` on Python strings. -/
def strLe (s t : String) : Bool :=
  charListLe s.toList t.toList

/-- Stable insertion into a list sorted by `le`. -/
def insertSortedBy (le : α → α → Bool) (a : α) : List α → List α
  | [] => [a]
  | x :: xs => if le a x then a :: x :: xs else x :: insertSortedBy le a xs

/-- Stable sort by `le` (Python's `sorted` is a stable ascending sort). -/
def sortBy (le : α → α → Bool) (l : List α) : List α :=
  l.foldr (insertSortedBy le) []

/-- `State.next_state`. -/
def nextState (s : State) (draw : Nat → ℚ) (agents : Cohort) :
    Except String Cohort :=
  if s.transition_set.transitions.length = 0 then
    .ok agents
  else
    match groupbyNewState s.transition_set draw agents with
    | .error e => .error e
    | .ok groups =>
      if groups.isEmpty then
        .ok ⟨agents.cols, []⟩
      else
        .ok ⟨agents.cols,
          ((sortBy (fun a b => strLe (outcomeStr a.1) (outcomeStr b.1)) groups).map
            (fun kg =>
              match kg.1 with
              | .state t => transitionEffect t kg.2
              | .null => kg.2)).flatten⟩

/-- `Machine`: the ordered list of declared states and the name of the
governing state column (the column itself is the `state` field of `Row`). -/
structure Machine where
  state_column : String
  states : List State

/-- The result list built by `Machine.transition`'s loop: for each declared
state in order, select the sub-population whose state-column value equals
that state's identifier and run `next_state` on it; the first raised error
aborts the loop. -/
def transitionResults (draw : Nat → ℚ) (agents : Cohort) :
    List State → Except String (List Cohort)
  | [] => .ok []
  | s :: rest =>
    match nextState s draw
        ⟨agents.cols, agents.rows.filter (fun r => decide (r.state = s.ref.state_id))⟩ with
    | .error e => .error e
    | .ok c =>
      match transitionResults draw agents rest with
      | .error e => .error e
      | .ok cs => .ok (c :: cs)

/-- `Machine.transition`: select each declared state's sub-population, run
`next_state` on it, and `pd.concat` the results (`pd.concat` of an empty
list raises). -/
def Machine.transition (m : Machine) (draw : Nat → ℚ) (agents : Cohort) :
    Except String Cohort :=
  if m.states.isEmpty then
    .error "No objects to concatenate"
  else
    match transitionResults draw agents m.states with
    | .error e => .error e
    | .ok results => .ok ⟨agents.cols, (results.map (fun c => c.rows)).flatten⟩

/-! ## Helper lemmas -/

/-- The sum of a list of rationals mapped through division by `t`. -/
theorem sum_map_div (l : List ℚ) (t : ℚ) :
    (l.map (fun q => q / t)).sum = l.sum / t := by
  induction l with
  | nil => simp
  | cons q qs ih => simp [ih, add_div]

/-- A list whose members are all `1` sums to its length. -/
theorem sum_of_all_one (l : List ℚ) (h : ∀ x ∈ l, x = 1) : l.sum = l.length := by
  induction l with
  | nil => simp
  | cons q qs ih =>
    have hq := h q (by simp)
    have := ih (fun x hx => h x (by simp [hx]))
    simp [hq, this]
    ring

/-- `groupby_new_state` raises the conservation error as soon as one agent's
per-agent probability total exceeds 1 (null transitions allowed). -/
theorem groupbyNewState_conservation_error (ts : TransitionSet) (draw : Nat → ℚ)
    (agents : Cohort) (hne : ts.transitions ≠ [])
    (hnull : ts.allow_null_transition = true)
    (p : Nat) (hp : p < agents.rows.length)
    (hgt : 1 < totalProb ts agents p) :
    groupbyNewState ts draw agents
      = .error "Total transition probability greater than 1" := by
  unfold groupbyNewState
  rw [if_neg, if_pos]
  · rw [hnull, Bool.true_and]
    exact List.any_eq_true.mpr ⟨p, List.mem_range.mpr hp, decide_eq_true hgt⟩
  · simp [List.isEmpty_iff, hne]

/-! ## C8: empty TransitionSet returns the cohort unchanged -/

/-- C8: for every `State` whose `TransitionSet` is empty and every cohort,
`State.next_state` returns the cohort unchanged — structurally and
value-wise identical to its input. -/
theorem next_state_empty_transition_set (s : State) (draw : Nat → ℚ)
    (agents : Cohort) (h : s.transition_set.transitions = []) :
    nextState s draw agents = .ok agents := by
  simp [nextState, h]

/-- Witness for C8 at a concrete state and cohort. -/
theorem next_state_empty_transition_set_witness :
    nextState ⟨⟨0, "a"⟩, ⟨true, []⟩⟩ (fun _ => 0) ⟨["state"], [⟨0, "a", 0⟩]⟩
      = .ok ⟨["state"], [⟨0, "a", 0⟩]⟩ :=
  next_state_empty_transition_set _ _ _ rfl

/-! ## C9: empty cohort never errors and keeps the schema -/

/-- C9: for every `State` (empty transition set or not), `State.next_state`
applied to an empty cohort returns a well-typed empty result with the same
schema (the same columns) as the input, and never an error. -/
theorem next_state_empty_cohort (s : State) (draw : Nat → ℚ) (agents : Cohort)
    (h : agents.rows = []) :
    nextState s draw agents = .ok ⟨agents.cols, []⟩ := by
  obtain ⟨cols, rows⟩ := agents
  simp only [Cohort.mk.injEq] at h
  subst h
  by_cases hts : s.transition_set.transitions = []
  · simp [nextState, hts]
  · simp [nextState, groupbyNewState, hts, List.isEmpty_iff, outputIndexes,
      groupsOf, sortedKeys, buildGroupDict]

/-- Witness for C9 at a concrete state with a non-empty transition set. -/
theorem next_state_empty_cohort_witness :
    nextState ⟨⟨0, "a"⟩, ⟨false, [⟨⟨1, "b"⟩, fun _ _ => 1⟩]⟩⟩ (fun _ => 0)
        ⟨["state", "age"], []⟩
      = .ok ⟨["state", "age"], []⟩ :=
  next_state_empty_cohort _ _ _ rfl

/-! ## C5: determinism of Machine.transition -/

/-- C5: `Machine.transition` is deterministic — two invocations with an
identical input population, identical machine configuration, and pointwise
identical random draw streams (the stream is a pure function of agent
identity) give the identical result, hence every agent the identical
outcome assignment. -/
theorem machine_transition_deterministic (m : Machine) (draw1 draw2 : Nat → ℚ)
    (agents1 agents2 : Cohort) (hpop : agents1 = agents2)
    (hdraw : ∀ i, draw1 i = draw2 i) :
    m.transition draw1 agents1 = m.transition draw2 agents2 := by
  cases hpop
  have h : draw1 = draw2 := funext hdraw
  cases h
  rfl

unseal Rat.add Rat.mul Rat.inv Rat.sub in
/-- Witness for C5: two extensionally equal draw streams written
differently give the same concrete run. -/
theorem machine_transition_deterministic_witness :
    (Machine.mk "state" [⟨⟨0, "a"⟩, ⟨true, [⟨⟨1, "b"⟩, fun _ _ => 1/2⟩]⟩⟩]).transition
        (fun _ => 1/2) ⟨["state"], [⟨0, "a", 0⟩]⟩
      = (Machine.mk "state" [⟨⟨0, "a"⟩, ⟨true, [⟨⟨1, "b"⟩, fun _ _ => 1/2⟩]⟩⟩]).transition
        (fun _ => 2/4) ⟨["state"], [⟨0, "a", 0⟩]⟩ :=
  machine_transition_deterministic _ _ _ _ _ rfl (fun _ => by decide)

/-! ## C4: normalization with null transitions disallowed -/

/-- C4 (amended): with null transitions disallowed, `groupby_new_state`
divides each transition's per-agent probability by that agent's total
(`probabilities /= total`), after which any agent whose total is nonzero
has probabilities summing to exactly 1.  (At a zero total the division is
degenerate and the sum is not 1 — see the counterexample.) -/
theorem normalized_probs_sum_one (ts : TransitionSet) (agents : Cohort) (p : Nat)
    (hnull : ts.allow_null_transition = false)
    (htot : totalProb ts agents p ≠ 0) :
    outcomeProbs ts agents p = normalizedProbs ts agents p ∧
    (normalizedProbs ts agents p).sum = 1 := by
  refine ⟨by simp [outcomeProbs, hnull], ?_⟩
  rw [normalizedProbs, sum_map_div]
  exact div_self htot

unseal Rat.add Rat.mul Rat.inv Rat.sub in
/-- Witness for C4's amended statement at a concrete transition set. -/
theorem normalized_probs_sum_one_witness :
    totalProb ⟨false, [⟨⟨1, "b"⟩, fun _ _ => 1/2⟩]⟩ ⟨["state"], [⟨0, "a", 0⟩]⟩ 0 ≠ 0 ∧
    (normalizedProbs ⟨false, [⟨⟨1, "b"⟩, fun _ _ => 1/2⟩]⟩
        ⟨["state"], [⟨0, "a", 0⟩]⟩ 0).sum = 1 :=
  ⟨by decide,
   (normalized_probs_sum_one ⟨false, [⟨⟨1, "b"⟩, fun _ _ => 1/2⟩]⟩
      ⟨["state"], [⟨0, "a", 0⟩]⟩ 0 rfl (by decide)).2⟩

unseal Rat.add Rat.mul Rat.inv Rat.sub in
/-- Counterexample to C4 as stated: a lone transition whose probability
function returns 0 gives an agent total of 0; after the division the
agent's probabilities do not sum to 1 (in floating point the division
yields NaN; in this exact model the degenerate division yields 0). -/
theorem normalized_probs_counterexample :
    ¬ ((normalizedProbs ⟨false, [⟨⟨1, "b"⟩, fun _ _ => 0⟩]⟩
        ⟨["state"], [⟨0, "a", 0⟩]⟩ 0).sum = 1) := by decide

/-! ## C1: per-agent conservation check fails before any mutation -/

/-- C1: with null transitions allowed, if any single agent's probability
total across all transitions exceeds 1 — the check is per agent, an
existential over agents, not an aggregate over the cohort —
`groupby_new_state` fails with the probability-conservation error, and
`State.next_state` propagates that error, so no grouped sub-cohort is ever
produced and no agent's state column or other data is mutated. -/
theorem conservation_error_before_mutation (st : State) (draw : Nat → ℚ)
    (agents : Cohort)
    (hnull : st.transition_set.allow_null_transition = true)
    (hne : st.transition_set.transitions ≠ [])
    (p : Nat) (hp : p < agents.rows.length)
    (hgt : 1 < totalProb st.transition_set agents p) :
    groupbyNewState st.transition_set draw agents
      = .error "Total transition probability greater than 1" ∧
    nextState st draw agents
      = .error "Total transition probability greater than 1" := by
  have hgb := groupbyNewState_conservation_error st.transition_set draw agents
    hne hnull p hp hgt
  refine ⟨hgb, ?_⟩
  have hlen : st.transition_set.transitions.length ≠ 0 := by
    simpa [List.length_eq_zero] using hne
  simp [nextState, hlen, hgb]

unseal Rat.add Rat.mul Rat.inv Rat.sub in
/-- Witness for C1: the first agent's totals are 0.7 + 0.5 = 1.2 > 1 while
the second agent's total is only 0.1; the error is still raised. -/
theorem conservation_error_before_mutation_witness :
    nextState
        ⟨⟨0, "a"⟩, ⟨true,
          [⟨⟨1, "b"⟩, fun _ p => if p = 0 then 7/10 else 1/10⟩,
           ⟨⟨2, "c"⟩, fun _ p => if p = 0 then 1/2 else 0⟩]⟩⟩
        (fun _ => 0) ⟨["state"], [⟨0, "a", 0⟩, ⟨1, "a", 0⟩]⟩
      = .error "Total transition probability greater than 1" :=
  (conservation_error_before_mutation _ _ _ rfl (by simp) 0 (by decide)
    (by decide)).2

/-! ## C10: default probability function and conservation -/

/-- C10: a `Transition` constructed without an explicit probability function
uses the default, which assigns probability 1.0 to every agent of every
cohort; consequently two or more default-probability transitions out of one
state, with null transitions allowed, make every non-empty cohort's
per-agent total exceed 1 and trigger the conservation error. -/
theorem default_probability_conservation (ts : TransitionSet) (draw : Nat → ℚ)
    (agents : Cohort)
    (hnull : ts.allow_null_transition = true)
    (hlen : 2 ≤ ts.transitions.length)
    (hdef : ∀ t ∈ ts.transitions, t.probability = defaultProbabilityFunc)
    (hne : agents.rows ≠ []) :
    (∀ t ∈ ts.transitions, ∀ c q, t.probability c q = 1) ∧
    groupbyNewState ts draw agents
      = .error "Total transition probability greater than 1" := by
  refine ⟨fun t ht c q => by rw [hdef t ht]; rfl, ?_⟩
  have htsne : ts.transitions ≠ [] := by
    intro h
    rw [h] at hlen
    simp at hlen
  have hp : 0 < agents.rows.length := by
    cases hr : agents.rows with
    | nil => exact absurd hr hne
    | cons a l => simp [hr]
  have htot : totalProb ts agents 0 = (ts.transitions.length : ℚ) := by
    rw [totalProb, sum_of_all_one]
    · simp [perAgentProbs]
    · intro x hx
      rw [perAgentProbs] at hx
      obtain ⟨t, ht, rfl⟩ := List.mem_map.mp hx
      rw [hdef t ht]
      rfl
  have hgt : 1 < totalProb ts agents 0 := by
    rw [htot]
    exact_mod_cast lt_of_lt_of_le one_lt_two (by exact_mod_cast hlen)
  exact groupbyNewState_conservation_error ts draw agents htsne hnull 0 hp hgt

unseal Rat.add Rat.mul Rat.inv Rat.sub in
/-- Witness for C10: two default transitions, one agent. -/
theorem default_probability_conservation_witness :
    groupbyNewState
        ⟨true, [⟨⟨1, "b"⟩, defaultProbabilityFunc⟩, ⟨⟨2, "c"⟩, defaultProbabilityFunc⟩]⟩
        (fun _ => 0) ⟨["state"], [⟨0, "a", 0⟩]⟩
      = .error "Total transition probability greater than 1" :=
  (default_probability_conservation _ _ _ rfl (by simp)
    (by intro t ht; simp at ht; rcases ht with h | h <;> simp [h]) (by simp)).2

/-! ## C3: the outcome-index formula -/

/-- Every entry of a cumulative sum of nonnegative values is nonnegative. -/
theorem cumsum_nonneg (l : List ℚ) (h : ∀ q ∈ l, 0 ≤ q) :
    ∀ s ∈ cumsum l, 0 ≤ s := by
  induction l with
  | nil => simp [cumsum]
  | cons q qs ih =>
    intro s hs
    rw [cumsum] at hs
    rcases List.mem_cons.mp hs with rfl | hs
    · exact h s (by simp)
    · obtain ⟨x, hx, rfl⟩ := List.mem_map.mp hs
      have hq : 0 ≤ q := h q (by simp)
      have hx0 : 0 ≤ x := ih (fun a ha => h a (by simp [ha])) x hx
      linarith

/-- The cumulative sums of nonnegative values are monotone along the list. -/
theorem cumsum_pairwise (l : List ℚ) (h : ∀ q ∈ l, 0 ≤ q) :
    List.Pairwise (· ≤ ·) (cumsum l) := by
  induction l with
  | nil => exact List.Pairwise.nil
  | cons q qs ih =>
    rw [cumsum]
    refine List.pairwise_cons.mpr ⟨?_, ?_⟩
    · intro s hs
      obtain ⟨x, hx, rfl⟩ := List.mem_map.mp hs
      have hx0 : 0 ≤ x := cumsum_nonneg qs (fun a ha => h a (by simp [ha])) x hx
      linarith
    · exact (ih (fun a ha => h a (by simp [ha]))).map _ (fun a b hab => by linarith)

/-- In a monotone list, every position before `countP (· ≤ d)` holds a value
that is `≤ d`. -/
theorem countP_prefix_le (d : ℚ) (l : List ℚ) (hp : List.Pairwise (· ≤ ·) l) :
    ∀ k, k < l.countP (fun s => decide (s ≤ d)) →
      ∀ hk2 : k < l.length, l.get ⟨k, hk2⟩ ≤ d := by
  induction l with
  | nil => simp
  | cons x xs ih =>
    obtain ⟨hx, hxs⟩ := List.pairwise_cons.mp hp
    intro k hk hk2
    by_cases hxd : x ≤ d
    · cases k with
      | zero => simpa using hxd
      | succ n =>
        rw [List.countP_cons_of_pos _ _ (by simpa using hxd)] at hk
        exact ih hxs n (by omega) (by simpa using hk2)
    · have hzero : xs.countP (fun s => decide (s ≤ d)) = 0 := by
        rw [List.countP_eq_zero]
        intro a ha
        have := hx a ha
        simp only [decide_eq_true_eq]
        intro had
        exact hxd (le_trans this had)
      rw [List.countP_cons_of_neg _ _ (by simpa using hxd), hzero] at hk
      omega

/-- In a monotone list, the value at position `countP (· ≤ d)` (when it
exists) is strictly greater than `d`. -/
theorem countP_at_gt (d : ℚ) (l : List ℚ) (hp : List.Pairwise (· ≤ ·) l) :
    ∀ j, ∀ hj : j < l.length, j = l.countP (fun s => decide (s ≤ d)) →
      d < l.get ⟨j, hj⟩ := by
  induction l with
  | nil => simp
  | cons x xs ih =>
    obtain ⟨hx, hxs⟩ := List.pairwise_cons.mp hp
    intro j hj hje
    by_cases hxd : x ≤ d
    · rw [List.countP_cons_of_pos _ _ (by simpa using hxd)] at hje
      cases j with
      | zero => omega
      | succ n =>
        have hn : n = xs.countP (fun s => decide (s ≤ d)) := by omega
        simpa using ih hxs n (by simpa using hj) hn
    · have hzero : xs.countP (fun s => decide (s ≤ d)) = 0 := by
        rw [List.countP_eq_zero]
        intro a ha
        have := hx a ha
        simp only [decide_eq_true_eq]
        intro had
        exact hxd (le_trans this had)
      rw [List.countP_cons_of_neg _ _ (by simpa using hxd), hzero] at hje
      cases hje
      simpa using lt_of_not_le hxd

/-- Modelled from the spec: the outcome-index formula the specification
states — "outcome index = count of cumulative thresholds strictly less
than the draw". -/
def specOutputIndex (sums : List ℚ) (d : ℚ) : Nat :=
  sums.countP (fun s => decide (s < d))

/-- C3 (amended): the assigned outcome index is the number of cumulative
thresholds that are less than **or equal to** the agent's draw
(`(draw >= sums).sum`); equivalently, with nonnegative outcome
probabilities, the agent goes to the first outcome whose cumulative
probability is **strictly greater** than its draw: every earlier threshold
is `≤` the draw and the assigned one exceeds it.  (At a draw exactly equal
to a threshold this differs from the spec's strictly-less/first-`≥`
formula — see the counterexample.) -/
theorem output_index_first_strictly_greater (ts : TransitionSet)
    (draw : Nat → ℚ) (agents : Cohort) (p : Nat) (r : Row)
    (hnn : ∀ q ∈ outcomeProbs ts agents p, 0 ≤ q) :
    outputIndexOf ts draw agents p r
      = (agentSums ts agents p).countP (fun s => decide (s ≤ draw r.idx)) ∧
    (∀ k, k < outputIndexOf ts draw agents p r →
      ∀ hk2 : k < (agentSums ts agents p).length,
        (agentSums ts agents p).get ⟨k, hk2⟩ ≤ draw r.idx) ∧
    (∀ hj : outputIndexOf ts draw agents p r < (agentSums ts agents p).length,
      draw r.idx < (agentSums ts agents p).get
        ⟨outputIndexOf ts draw agents p r, hj⟩) := by
  have hp : List.Pairwise (· ≤ ·) (agentSums ts agents p) :=
    cumsum_pairwise _ hnn
  exact ⟨rfl, countP_prefix_le _ _ hp, fun hj => countP_at_gt _ _ hp _ hj rfl⟩

unseal Rat.add Rat.mul Rat.inv Rat.sub in
/-- Witness for C3's amended statement: one transition at probability 1/2,
draw 3/4; the agent is assigned index 1 (the null transition), threshold
1/2 is below the draw and threshold 1 exceeds it. -/
theorem output_index_first_strictly_greater_witness :
    (∀ q ∈ outcomeProbs ⟨true, [⟨⟨1, "b"⟩, fun _ _ => 1/2⟩]⟩
        ⟨["state"], [⟨0, "a", 0⟩]⟩ 0, 0 ≤ q) ∧
    (∀ hj : outputIndexOf ⟨true, [⟨⟨1, "b"⟩, fun _ _ => 1/2⟩]⟩ (fun _ => 3/4)
          ⟨["state"], [⟨0, "a", 0⟩]⟩ 0 ⟨0, "a", 0⟩
        < (agentSums ⟨true, [⟨⟨1, "b"⟩, fun _ _ => 1/2⟩]⟩
            ⟨["state"], [⟨0, "a", 0⟩]⟩ 0).length,
      (fun _ => (3:ℚ)/4) 0
        < (agentSums ⟨true, [⟨⟨1, "b"⟩, fun _ _ => 1/2⟩]⟩
            ⟨["state"], [⟨0, "a", 0⟩]⟩ 0).get
          ⟨outputIndexOf ⟨true, [⟨⟨1, "b"⟩, fun _ _ => 1/2⟩]⟩ (fun _ => 3/4)
              ⟨["state"], [⟨0, "a", 0⟩]⟩ 0 ⟨0, "a", 0⟩, hj⟩) :=
  ⟨by decide,
   (output_index_first_strictly_greater ⟨true, [⟨⟨1, "b"⟩, fun _ _ => 1/2⟩]⟩
      (fun _ => 3/4) ⟨["state"], [⟨0, "a", 0⟩]⟩ 0 ⟨0, "a", 0⟩ (by decide)).2.2⟩

unseal Rat.add Rat.mul Rat.inv Rat.sub in
/-- Counterexample to C3 as stated: one transition at probability 1/2 with
a draw of exactly 1/2.  The cumulative thresholds are [1/2, 1]; the code
counts thresholds `≤` the draw and assigns index 1 — the null transition —
whereas the spec's formula (thresholds strictly below the draw; first
outcome with cumulative `≥` draw) gives index 0, the declared transition. -/
theorem output_index_counterexample :
    outputIndexOf ⟨true, [⟨⟨1, "b"⟩, fun _ _ => 1/2⟩]⟩ (fun _ => 1/2)
        ⟨["state"], [⟨0, "a", 0⟩]⟩ 0 ⟨0, "a", 0⟩ = 1 ∧
    specOutputIndex (agentSums ⟨true, [⟨⟨1, "b"⟩, fun _ _ => 1/2⟩]⟩
        ⟨["state"], [⟨0, "a", 0⟩]⟩ 0) ((1:ℚ)/2) = 0 ∧
    groupbyNewState ⟨true, [⟨⟨1, "b"⟩, fun _ _ => 1/2⟩]⟩ (fun _ => 1/2)
        ⟨["state"], [⟨0, "a", 0⟩]⟩
      = .ok [(Outcome.null, [⟨0, "a", 0⟩])] := by
  refine ⟨by decide, by decide, by decide⟩

/-! ## Component lifecycle registration (`src/vivarium/component.py`) -/

/-- The lifecycle event phases whose listeners `Component.setup_component`
may register (`post_setup`, `time_step__prepare`, `time_step`,
`time_step__cleanup`, `collect_metrics`, `simulation_end`). -/
inductive Phase where
  | post_setup
  | time_step_prepare
  | time_step
  | time_step_cleanup
  | collect_metrics
  | simulation_end
deriving DecidableEq

/-- A `Component`, as its registration logic observes it: which overridable
hooks the concrete class overrides (the code's
`type(self).on_x != Component.on_x` checks, one boolean per hook), the
per-phase listener priorities (each defaulting to
`DEFAULT_EVENT_PRIORITY = 5`), and the column declarations. -/
structure Component where
  overridesOnPostSetup : Bool := false
  overridesOnInitSimulants : Bool := false
  overridesOnTimeStepPrepare : Bool := false
  overridesOnTimeStep : Bool := false
  overridesOnTimeStepCleanup : Bool := false
  overridesOnCollectMetrics : Bool := false
  overridesOnSimulationEnd : Bool := false
  postSetupPriority : Nat := 5
  timeStepPreparePriority : Nat := 5
  timeStepPriority : Nat := 5
  timeStepCleanupPriority : Nat := 5
  collectMetricsPriority : Nat := 5
  simulationEndPriority : Nat := 5
  columnsCreated : List String := []
  columnsRequired : Option (List String) := none

/-- The event-listener registrations performed by
`Component.setup_component`, in registration order: each
`_register_x_listener` registers `(phase, priority)` exactly when the
class overrides the corresponding hook.  (The simulant initializer is
registered with the population manager, not as an event listener; see
`registersSimulantInit`.) -/
def setupComponent (c : Component) : List (Phase × Nat) :=
  (if c.overridesOnPostSetup then [(Phase.post_setup, c.postSetupPriority)] else []) ++
  (if c.overridesOnTimeStepPrepare then [(Phase.time_step_prepare, c.timeStepPreparePriority)] else []) ++
  (if c.overridesOnTimeStep then [(Phase.time_step, c.timeStepPriority)] else []) ++
  (if c.overridesOnTimeStepCleanup then [(Phase.time_step_cleanup, c.timeStepCleanupPriority)] else []) ++
  (if c.overridesOnCollectMetrics then [(Phase.collect_metrics, c.collectMetricsPriority)] else []) ++
  (if c.overridesOnSimulationEnd then [(Phase.simulation_end, c.simulationEndPriority)] else [])

/-- `_register_simulant_initializer` registers with the population manager
exactly when the class overrides `on_initialize_simulants`. -/
def registersSimulantInit (c : Component) : Bool :=
  c.overridesOnInitSimulants

/-- Whether `setup_component` registered any listener on a given phase. -/
def registersPhase (c : Component) (ph : Phase) : Bool :=
  (setupComponent c).any (fun e => decide (e.1 = ph))

/-- C6: `setup_component` registers a listener for a lifecycle phase iff
the component's class overrides that phase's default no-op hook; in
particular a component overriding only `on_time_step` registers exactly
one listener, on the `time_step` phase, at its declared `time_step`
priority, and zero listeners on every other phase. -/
theorem setup_registers_iff_overrides (c : Component) :
    (registersPhase c Phase.post_setup = c.overridesOnPostSetup) ∧
    (registersPhase c Phase.time_step_prepare = c.overridesOnTimeStepPrepare) ∧
    (registersPhase c Phase.time_step = c.overridesOnTimeStep) ∧
    (registersPhase c Phase.time_step_cleanup = c.overridesOnTimeStepCleanup) ∧
    (registersPhase c Phase.collect_metrics = c.overridesOnCollectMetrics) ∧
    (registersPhase c Phase.simulation_end = c.overridesOnSimulationEnd) ∧
    (c.overridesOnPostSetup = false → c.overridesOnTimeStepPrepare = false →
      c.overridesOnTimeStep = true → c.overridesOnTimeStepCleanup = false →
      c.overridesOnCollectMetrics = false → c.overridesOnSimulationEnd = false →
      setupComponent c = [(Phase.time_step, c.timeStepPriority)]) := by
  obtain ⟨f1, f2, f3, f4, f5, f6, f7, p1, p2, p3, p4, p5, p6, cc, cr⟩ := c
  cases f1 <;> cases f3 <;> cases f4 <;> cases f5 <;> cases f6 <;> cases f7 <;>
    simp [setupComponent, registersPhase]

/-- Witness for C6's scenario: a component overriding only `on_time_step`,
with declared priority 3, registers exactly that one listener. -/
theorem setup_registers_iff_overrides_witness :
    setupComponent
        ⟨false, false, false, true, false, false, false, 5, 5, 3, 5, 5, 5, [], none⟩
      = [(Phase.time_step, 3)] :=
  (setup_registers_iff_overrides
      ⟨false, false, false, true, false, false, false, 5, 5, 3, 5, 5, 5, [], none⟩
    ).2.2.2.2.2.2 rfl rfl rfl rfl rfl rfl

/-- `Component._set_population_view`: the column list passed to
`builder.population.get_view`, or `none` when no view is created.  `some []`
is the code's empty-list request, which the population system resolves to
all available columns. -/
def populationViewColumns (columns_required : Option (List String))
    (columns_created : List String) : Option (List String) :=
  match columns_required with
  | some l => if l ≠ [] then some (columns_created ++ l) else some []
  | none => if columns_created ≠ [] then some columns_created else none

/-- Modelled from the spec: `builder.population.get_view` (whose code is
not under `src/`) resolves a requested empty column list to all available
columns of the population table; `none` means no view is created at all. -/
def resolveView (allColumns : List String) :
    Option (List String) → Option (List String)
  | none => none
  | some [] => some allColumns
  | some l => some l

/-- C7: `_set_population_view` computes the view's column set with this
precedence: a non-empty `columns_required` list gives
`columns_created ++ columns_required`; the empty-list sentinel gives a view
of all columns; `columns_required = None` with non-empty `columns_created`
gives `columns_created` only; `columns_required = None` with empty
`columns_created` creates no view at all. -/
theorem population_view_precedence (columns_required : Option (List String))
    (columns_created allColumns : List String) :
    (∀ l, columns_required = some l → l ≠ [] →
      resolveView allColumns (populationViewColumns columns_required columns_created)
        = some (columns_created ++ l)) ∧
    (columns_required = some [] →
      resolveView allColumns (populationViewColumns columns_required columns_created)
        = some allColumns) ∧
    (columns_required = none → columns_created ≠ [] →
      resolveView allColumns (populationViewColumns columns_required columns_created)
        = some columns_created) ∧
    (columns_required = none → columns_created = [] →
      resolveView allColumns (populationViewColumns columns_required columns_created)
        = none) := by
  refine ⟨?_, ?_, ?_, ?_⟩
  · rintro l rfl hl
    cases hcl : columns_created ++ l with
    | nil =>
      rcases List.append_eq_nil.mp hcl with ⟨-, rfl⟩
      exact absurd rfl hl
    | cons x xs =>
      simp [populationViewColumns, hl, resolveView, hcl]
  · rintro rfl
    simp [populationViewColumns, resolveView]
  · rintro rfl hcc
    cases hc : columns_created with
    | nil => exact absurd hc hcc
    | cons x xs => simp [populationViewColumns, hc, resolveView]
  · rintro rfl rfl
    simp [populationViewColumns, resolveView]

/-- Witness for C7: the empty-list sentinel resolves to all columns even
when created columns exist. -/
theorem population_view_precedence_witness :
    resolveView ["age", "sex", "state"] (populationViewColumns (some []) ["state"])
      = some ["age", "sex", "state"] :=
  (population_view_precedence (some []) ["state"] ["age", "sex", "state"]).2.1 rfl

/-! ## C2: Machine.transition preserves the set of agents -/

/-- Membership in `insertKey`. -/
theorem mem_insertKey (a k : Nat) (l : List Nat) :
    a ∈ insertKey k l ↔ a = k ∨ a ∈ l := by
  induction l with
  | nil => simp [insertKey]
  | cons x xs ih =>
    rw [insertKey]
    by_cases h1 : k < x
    · rw [if_pos h1]
      simp only [List.mem_cons]
    · by_cases h2 : k = x
      · subst h2
        rw [if_neg h1, if_pos rfl]
        simp only [List.mem_cons]
        tauto
      · rw [if_neg h1, if_neg h2]
        simp only [List.mem_cons, ih]
        tauto

/-- `insertKey` preserves strict ascending order. -/
theorem insertKey_pairwise_lt (k : Nat) (l : List Nat)
    (h : List.Pairwise (· < ·) l) :
    List.Pairwise (· < ·) (insertKey k l) := by
  induction l with
  | nil => simp [insertKey]
  | cons x xs ih =>
    obtain ⟨hx, hxs⟩ := List.pairwise_cons.mp h
    rw [insertKey]
    by_cases h1 : k < x
    · rw [if_pos h1]
      refine List.pairwise_cons.mpr ⟨?_, h⟩
      intro b hb
      rcases List.mem_cons.mp hb with rfl | hb2
      · exact h1
      · exact lt_trans h1 (hx b hb2)
    · by_cases h2 : k = x
      · rw [if_neg h1, if_pos h2]
        exact h
      · rw [if_neg h1, if_neg h2]
        refine List.pairwise_cons.mpr ⟨?_, ih hxs⟩
        intro b hb
        rcases (mem_insertKey b k xs).mp hb with rfl | hb2
        · omega
        · exact hx b hb2

/-- The keys produced by `sortedKeys` are strictly ascending. -/
theorem sortedKeys_pairwise (l : List Nat) :
    List.Pairwise (· < ·) (sortedKeys l) := by
  induction l with
  | nil => exact List.Pairwise.nil
  | cons x xs ih => exact insertKey_pairwise_lt x (sortedKeys xs) ih

/-- The keys produced by `sortedKeys` are duplicate-free. -/
theorem nodup_sortedKeys (l : List Nat) : (sortedKeys l).Nodup :=
  (sortedKeys_pairwise l).imp (fun h => Nat.ne_of_lt h)

/-- `sortedKeys` has the same members as its input. -/
theorem mem_sortedKeys (a : Nat) (l : List Nat) :
    a ∈ sortedKeys l ↔ a ∈ l := by
  induction l with
  | nil => simp [sortedKeys]
  | cons x xs ih =>
    show a ∈ insertKey x (sortedKeys xs) ↔ _
    rw [mem_insertKey]
    simp [ih]

/-- In a duplicate-free list, filtering for one contained value yields
exactly one element. -/
theorem filter_count_one (a : Nat) (l : List Nat) (hn : l.Nodup) (ha : a ∈ l) :
    (l.filter (fun k => decide (a = k))).length = 1 := by
  induction l with
  | nil => simp at ha
  | cons x xs ih =>
    obtain ⟨hx, hxs⟩ := List.nodup_cons.mp hn
    rcases List.mem_cons.mp ha with rfl | ha2
    · rw [List.filter_cons_of_pos (by simp)]
      have hnil : xs.filter (fun k => decide (a = k)) = [] := by
        rw [List.filter_eq_nil_iff]
        intro b hb
        simp only [decide_eq_true_eq]
        intro hab
        exact hx (hab ▸ hb)
      simp [hnil]
    · have hax : ¬(a = x) := fun h => hx (h ▸ ha2)
      rw [List.filter_cons_of_neg (by simp [hax])]
      exact ih hxs ha2

/-- Elements excluded by `q` can be pre-filtered away without changing a
filter by `p`, when `p` implies not-`q` on the list. -/
theorem filter_excluded {α : Type} (p q : α → Bool) (xs : List α)
    (h : ∀ x ∈ xs, p x = true → q x = false) :
    xs.filter p = (xs.filter (fun x => !q x)).filter p := by
  induction xs with
  | nil => rfl
  | cons x xs ih =>
    have ih2 := ih (fun a ha => h a (by simp [ha]))
    cases hq : q x with
    | false => simp [List.filter_cons, hq, ih2]
    | true =>
      have hp : p x = false := by
        cases hpx : p x
        · rfl
        · have := h x (by simp) hpx
          rw [hq] at this
          exact absurd this (by simp)
      simp [List.filter_cons, hq, hp, ih2]

/-- Partition lemma: if every element matches exactly one key of `L`, then
concatenating the per-key filters is a permutation of the whole list. -/
theorem flatten_filter_perm {κ α : Type} (p : κ → α → Bool) :
    ∀ (L : List κ) (xs : List α),
      (∀ x ∈ xs, (L.filter (fun k => p k x)).length = 1) →
      ((L.map (fun k => xs.filter (p k))).flatten).Perm xs := by
  intro L
  induction L with
  | nil =>
    intro xs h
    cases xs with
    | nil => simp
    | cons x xs2 => simpa using h x (by simp)
  | cons k ks ih =>
    intro xs h
    have hsplit := List.filter_append_perm (p k) xs
    have hupd : ∀ x ∈ xs, p k x = true →
        (ks.filter (fun k2 => p k2 x)).length = 0 := by
      intro x hx hpk
      have hx1 := h x hx
      rw [List.filter_cons_of_pos (by simp [hpk])] at hx1
      simpa using hx1
    have hrw : ∀ k2 ∈ ks, xs.filter (p k2)
        = (xs.filter (fun x => !p k x)).filter (p k2) := by
      intro k2 hk2
      apply filter_excluded
      intro x hx hpx2
      cases hpk : p k x
      · rfl
      · have h0 := hupd x hx hpk
        rw [List.length_eq_zero, List.filter_eq_nil_iff] at h0
        exact absurd hpx2 (by simpa using h0 k2 hk2)
    have hih := ih (xs.filter (fun x => !p k x)) ?hcnt
    case hcnt =>
      intro x hx
      obtain ⟨hxs, hnot⟩ := List.mem_filter.mp hx
      have hx1 := h x hxs
      rw [List.filter_cons_of_neg (by simpa using hnot)] at hx1
      exact hx1
    rw [List.map_cons, List.flatten_cons,
        List.map_congr_left hrw]
    exact ((hih.append_left (xs.filter (p k))).trans hsplit)

/-- The second components of a zip of equal-length lists. -/
theorem map_snd_zip_eq {α β : Type} (as : List α) : ∀ (bs : List β),
    as.length = bs.length → ((as.zip bs).map (fun pr => pr.2)) = bs := by
  induction as with
  | nil =>
    intro bs h
    cases bs with
    | nil => rfl
    | cons b bs2 => simp at h
  | cons a as ih =>
    intro bs h
    cases bs with
    | nil => simp at h
    | cons b bs2 => simp [ih bs2 (by simpa using h)]

/-- `groupby` partitions: the concatenation of all groups' rows is a
permutation of the grouped rows. -/
theorem groupsOf_flatten_perm (indexes : List Nat) (rows : List Row)
    (hlen : indexes.length = rows.length) :
    (((groupsOf indexes rows).map (fun kg => kg.2)).flatten).Perm rows := by
  rw [groupsOf]
  have hcount : ∀ pr ∈ indexes.zip rows,
      ((sortedKeys ((indexes.zip rows).map (fun pr => pr.1))).filter
        (fun k => decide (pr.1 = k))).length = 1 := by
    intro pr hpr
    apply filter_count_one
    · exact nodup_sortedKeys _
    · rw [mem_sortedKeys]
      exact List.mem_map_of_mem _ hpr
  have hperm := (flatten_filter_perm (fun k (pr : Nat × Row) => decide (pr.1 = k))
      (sortedKeys ((indexes.zip rows).map (fun pr => pr.1)))
      (indexes.zip rows) hcount).map (fun pr : Nat × Row => pr.2)
  rw [List.map_flatten _ _, List.map_map, map_snd_zip_eq indexes rows hlen] at hperm
  simpa [List.map_map, Function.comp] using hperm

/-- Inserting a key not present in the dictionary appends the entry. -/
theorem dictInsert_fresh (d : List (Outcome × List Row)) (k : Outcome)
    (v : List Row) (h : ∀ e ∈ d, e.1 ≠ k) :
    dictInsert d k v = d ++ [(k, v)] := by
  have hany : ¬(d.any (fun e => decide (e.1 = k)) = true) := by
    intro hx
    obtain ⟨e, he, hpe⟩ := List.any_eq_true.mp hx
    exact h e he (by simpa using hpe)
  rw [dictInsert, if_neg hany]

/-- Folding `dictInsert` over entries with pairwise-fresh keys performs no
overwrite: the dictionary is exactly the entry list. -/
theorem foldl_dictInsert_eq (gs : List (Outcome × List Row)) :
    ∀ d : List (Outcome × List Row),
      ((d.map (fun e => e.1)) ++ gs.map (fun e => e.1)).Nodup →
      gs.foldl (fun acc e => dictInsert acc e.1 e.2) d = d ++ gs := by
  induction gs with
  | nil =>
    intro d h
    simp
  | cons g gs ih =>
    intro d h
    rw [List.foldl_cons]
    have hfresh : ∀ e ∈ d, e.1 ≠ g.1 := by
      intro e he hek
      rcases List.nodup_append.mp h with ⟨-, -, hdisj⟩
      exact hdisj (List.mem_map_of_mem _ he) (by simp [hek])
    rw [dictInsert_fresh d g.1 g.2 hfresh]
    have hnodup2 : (((d ++ [(g.1, g.2)]).map (fun e => e.1))
        ++ gs.map (fun e => e.1)).Nodup := by
      rw [List.map_append]
      rw [List.append_assoc]
      simpa using h
    rw [ih (d ++ [(g.1, g.2)]) hnodup2]
    simp

/-- Translating duplicate-free in-range indexes through a duplicate-free
outcome list keeps the keys duplicate-free. -/
theorem tkeys_nodup (outputs : List Outcome) (houts : outputs.Nodup)
    (ks : List Nat) (hks : ks.Nodup) (hlt : ∀ k ∈ ks, k < outputs.length) :
    (ks.map (fun k => outputs.getD k Outcome.null)).Nodup := by
  apply List.Nodup.map_on _ hks
  intro x hx y hy hxy
  have hx2 := hlt x hx
  have hy2 := hlt y hy
  rw [List.getD_eq_getElem outputs Outcome.null hx2,
      List.getD_eq_getElem outputs Outcome.null hy2] at hxy
  have hfin : (⟨x, hx2⟩ : Fin outputs.length) = ⟨y, hy2⟩ :=
    houts.get_inj_iff.mp (by
      rw [List.get_eq_getElem, List.get_eq_getElem]
      exact hxy)
  simpa using congrArg Fin.val hfin

/-- With pairwise-distinct transition outputs the ordered outcome list is
duplicate-free (the null marker differs from every state). -/
theorem outcomesList_nodup (ts : TransitionSet)
    (h : (ts.transitions.map (fun t => t.output)).Nodup) :
    (outcomesList ts).Nodup := by
  have hmap : (ts.transitions.map (fun t => Outcome.state t.output)).Nodup := by
    have h2 : ((ts.transitions.map (fun t => t.output)).map Outcome.state).Nodup :=
      List.Nodup.map_on (fun x _ y _ hxy => Outcome.state.inj hxy) h
    simpa [List.map_map, Function.comp] using h2
  rw [outcomesList]
  by_cases hb : ts.allow_null_transition
  · rw [if_pos hb, List.nodup_append]
    refine ⟨hmap, List.nodup_singleton _, ?_⟩
    intro x hx hx2
    simp only [List.mem_singleton] at hx2
    subst hx2
    simp [List.mem_map] at hx
  · rw [if_neg hb]
    exact hmap

/-- The keys of the groups are the sorted distinct index values. -/
theorem groupsOf_keys (indexes : List Nat) (rows : List Row) :
    (groupsOf indexes rows).map (fun kg => kg.1)
      = sortedKeys ((indexes.zip rows).map (fun pr => pr.1)) := by
  rw [groupsOf, List.map_map]
  have hcomp : ((fun kg : Nat × List Row => kg.1)
      ∘ (fun k => (k, ((indexes.zip rows).filter
          (fun pr => decide (pr.1 = k))).map (fun pr => pr.2)))) = id := rfl
  rw [hcomp, List.map_id]

/-- When `groupby_new_state` succeeds and the transition outputs are
pairwise distinct, the returned dictionary is exactly the index groups
keyed by their outcomes — no entry is overwritten. -/
theorem groupbyNewState_ok_eq (ts : TransitionSet) (draw : Nat → ℚ)
    (agents : Cohort) (groups : List (Outcome × List Row))
    (hout : (ts.transitions.map (fun t => t.output)).Nodup)
    (hok : groupbyNewState ts draw agents = .ok groups) :
    groups = (groupsOf (outputIndexes ts draw agents) agents.rows).map
      (fun kg => ((outcomesList ts).getD kg.1 Outcome.null, kg.2)) := by
  rw [groupbyNewState] at hok
  split at hok
  · exact absurd hok (by simp)
  · split at hok
    · exact absurd hok (by simp)
    · rw [buildGroupDict] at hok
      split at hok
      case isTrue hall =>
        injection hok with hok2
        subst hok2
        set gs := groupsOf (outputIndexes ts draw agents) agents.rows with hgs
        have hbound : ∀ kg ∈ gs, kg.1 < (outcomesList ts).length := by
          intro kg hkg
          have := List.all_eq_true.mp hall kg hkg
          simpa using this
        have hksnodup : (gs.map (fun kg => kg.1)).Nodup := by
          rw [hgs, groupsOf_keys]
          exact nodup_sortedKeys _
        have htrans : gs.foldl
            (fun d kg => dictInsert d ((outcomesList ts).getD kg.1 Outcome.null) kg.2) []
            = (gs.map (fun kg => ((outcomesList ts).getD kg.1 Outcome.null, kg.2))).foldl
              (fun acc e => dictInsert acc e.1 e.2) [] := by
          rw [List.foldl_map]
        rw [htrans, foldl_dictInsert_eq _ []]
        · simp
        · simp only [List.map_nil, List.nil_append, List.map_map]
          have hcomp : ((fun e : Outcome × List Row => e.1)
              ∘ (fun kg : Nat × List Row => ((outcomesList ts).getD kg.1 Outcome.null, kg.2)))
              = fun kg : Nat × List Row => (outcomesList ts).getD kg.1 Outcome.null := rfl
          rw [hcomp]
          have heq2 : (gs.map (fun kg : Nat × List Row => (outcomesList ts).getD kg.1 Outcome.null))
              = ((gs.map (fun kg => kg.1)).map (fun k => (outcomesList ts).getD k Outcome.null)) := by
            rw [List.map_map]
            rfl
          rw [heq2]
          apply tkeys_nodup _ (outcomesList_nodup ts hout) _ hksnodup
          intro k hk
          obtain ⟨kg, hkg, rfl⟩ := List.mem_map.mp hk
          exact hbound kg hkg
      case isFalse => exact absurd hok (by simp)

/-- When `groupby_new_state` succeeds with pairwise-distinct transition
outputs, the groups partition the cohort: concatenating them permutes the
input rows. -/
theorem groupbyNewState_partition (ts : TransitionSet) (draw : Nat → ℚ)
    (agents : Cohort) (groups : List (Outcome × List Row))
    (hout : (ts.transitions.map (fun t => t.output)).Nodup)
    (hok : groupbyNewState ts draw agents = .ok groups) :
    ((groups.map (fun kg => kg.2)).flatten).Perm agents.rows := by
  rw [groupbyNewState_ok_eq ts draw agents groups hout hok, List.map_map]
  have hcomp : ((fun kg : Outcome × List Row => kg.2)
      ∘ (fun kg : Nat × List Row => ((outcomesList ts).getD kg.1 Outcome.null, kg.2)))
      = fun kg : Nat × List Row => kg.2 := rfl
  rw [hcomp]
  apply groupsOf_flatten_perm
  rw [outputIndexes, List.length_map, List.enum_length]

/-- Stable insertion permutes: the result is a permutation of consing. -/
theorem insertSortedBy_perm {α : Type} (le : α → α → Bool) (a : α)
    (l : List α) : (insertSortedBy le a l).Perm (a :: l) := by
  induction l with
  | nil => exact List.Perm.refl _
  | cons x xs ih =>
    rw [insertSortedBy]
    by_cases h : le a x
    · rw [if_pos h]
    · rw [if_neg h]
      exact (ih.cons x).trans (List.Perm.swap a x xs)

/-- `sorted(...)` permutes its input. -/
theorem sortBy_perm {α : Type} (le : α → α → Bool) (l : List α) :
    (sortBy le l).Perm l := by
  induction l with
  | nil => exact List.Perm.refl _
  | cons x xs ih =>
    show (insertSortedBy le x (sortBy le xs)).Perm (x :: xs)
    exact (insertSortedBy_perm le x (sortBy le xs)).trans (ih.cons x)

/-- `transition_effect` only rewrites the state column: the agent labels
are untouched. -/
theorem transitionEffect_map_idx (t : StateRef) (g : List Row) :
    (transitionEffect t g).map (fun r => r.idx) = g.map (fun r => r.idx) := by
  rw [transitionEffect, List.map_map]
  rfl

/-- `next_state` preserves the multiset of agent labels whenever it
returns, provided the transition outputs are pairwise distinct. -/
theorem nextState_preserves_idx (s : State) (draw : Nat → ℚ) (c : Cohort)
    (res : Cohort)
    (hout : (s.transition_set.transitions.map (fun t => t.output)).Nodup)
    (hok : nextState s draw c = .ok res) :
    (res.rows.map (fun r => r.idx)).Perm (c.rows.map (fun r => r.idx)) := by
  rw [nextState] at hok
  split at hok
  · injection hok with h
    subst h
    exact List.Perm.refl _
  · cases hgb : groupbyNewState s.transition_set draw c with
    | error e =>
      simp only [hgb] at hok
      exact absurd hok (by simp)
    | ok groups =>
      simp only [hgb] at hok
      have hpart := groupbyNewState_partition _ draw c groups hout hgb
      by_cases hge : groups.isEmpty
      · rw [if_pos hge] at hok
        injection hok with h
        subst h
        have hgnil : groups = [] := List.isEmpty_iff.mp hge
        subst hgnil
        simp only [List.map_nil, List.flatten_nil] at hpart
        have hcnil : c.rows = [] := hpart.symm.eq_nil
        simp [hcnil]
      · rw [if_neg hge] at hok
        injection hok with h
        subst h
        rw [List.map_flatten _ _, List.map_map]
        have hpt : ∀ kg ∈ sortBy (fun a b => strLe (outcomeStr a.1) (outcomeStr b.1)) groups,
            ((fun rows : List Row => rows.map (fun r => r.idx)) ∘
              (fun kg : Outcome × List Row =>
                match kg.1 with
                | .state t => transitionEffect t kg.2
                | .null => kg.2)) kg = kg.2.map (fun r => r.idx) := by
          intro kg _
          cases hk : kg.1 with
          | state t => simp [Function.comp, hk, transitionEffect_map_idx]
          | null => simp [Function.comp, hk]
        rw [List.map_congr_left hpt]
        have hsp := (sortBy_perm (fun a b => strLe (outcomeStr a.1) (outcomeStr b.1)) groups).map
          (fun kg : Outcome × List Row => kg.2.map (fun r => r.idx))
        refine hsp.flatten.trans ?_
        have heq : groups.map (fun kg : Outcome × List Row => kg.2.map (fun r => r.idx))
            = (groups.map (fun kg => kg.2)).map (List.map (fun r => r.idx)) := by
          rw [List.map_map]
          rfl
        rw [heq, ← List.map_flatten _ _]
        exact hpart.map _

/-- The loop of `Machine.transition` preserves, state by state, the agent
labels of the selected sub-populations. -/
theorem transitionResults_perm (draw : Nat → ℚ) (agents : Cohort) :
    ∀ (states : List State) (results : List Cohort),
      (∀ s ∈ states, (s.transition_set.transitions.map (fun t => t.output)).Nodup) →
      transitionResults draw agents states = .ok results →
      ((results.map (fun c => c.rows.map (fun r => r.idx))).flatten).Perm
        ((states.map (fun s => (agents.rows.filter
            (fun r => decide (r.state = s.ref.state_id))).map (fun r => r.idx))).flatten) := by
  intro states
  induction states with
  | nil =>
    intro results h hok
    rw [transitionResults] at hok
    injection hok with h2
    subst h2
    simp
  | cons s rest ih =>
    intro results h hok
    rw [transitionResults] at hok
    cases hns : nextState s draw
        ⟨agents.cols, agents.rows.filter (fun r => decide (r.state = s.ref.state_id))⟩ with
    | error e =>
      simp only [hns] at hok
      exact absurd hok (by simp)
    | ok c =>
      simp only [hns] at hok
      cases hrest : transitionResults draw agents rest with
      | error e =>
        simp only [hrest] at hok
        exact absurd hok (by simp)
      | ok cs =>
        simp only [hrest] at hok
        injection hok with h2
        subst h2
        rw [List.map_cons, List.flatten_cons, List.map_cons, List.flatten_cons]
        have hhead := nextState_preserves_idx s draw _ c (h s (by simp)) hns
        exact hhead.append (ih cs (fun s2 hs2 => h s2 (by simp [hs2])) hrest)

/-- Selecting each state's sub-population partitions the population when
every agent matches exactly one declared state. -/
theorem states_filter_perm (states : List State) (rows : List Row)
    (hcover : ∀ r ∈ rows, (states.filter
      (fun s => decide (r.state = s.ref.state_id))).length = 1) :
    ((states.map (fun s => rows.filter
        (fun r => decide (r.state = s.ref.state_id)))).flatten).Perm rows :=
  flatten_filter_perm (fun s r => decide (r.state = s.ref.state_id)) states rows hcover

/-- C2 (amended): for every population and machine whose declared states'
identifiers cover every agent's state value exactly once, and whose
transition sets name pairwise-distinct output states, every invocation of
`Machine.transition` that returns a result (rather than raising) returns
exactly the input agents: each agent label appears exactly once, no agent
created, dropped, or duplicated, regardless of row order.  (Without the
pairwise-distinct-outputs hypothesis the groups dictionary can overwrite an
entry and silently drop agents — see the counterexample.) -/
theorem machine_transition_preserves_agents (m : Machine) (draw : Nat → ℚ)
    (agents : Cohort) (result : Cohort)
    (hcover : ∀ r ∈ agents.rows, (m.states.filter
      (fun s => decide (r.state = s.ref.state_id))).length = 1)
    (houts : ∀ s ∈ m.states,
      (s.transition_set.transitions.map (fun t => t.output)).Nodup)
    (hok : m.transition draw agents = .ok result) :
    (result.rows.map (fun r => r.idx)).Perm (agents.rows.map (fun r => r.idx)) := by
  rw [Machine.transition] at hok
  split at hok
  · exact absurd hok (by simp)
  · cases hres : transitionResults draw agents m.states with
    | error e =>
      simp only [hres] at hok
      exact absurd hok (by simp)
    | ok results =>
      simp only [hres] at hok
      injection hok with h2
      subst h2
      have hchain := transitionResults_perm draw agents m.states results houts hres
      rw [List.map_flatten _ _, List.map_map]
      refine hchain.trans ?_
      have heq : m.states.map (fun s => (agents.rows.filter
          (fun r => decide (r.state = s.ref.state_id))).map (fun r => r.idx))
          = (m.states.map (fun s => agents.rows.filter
              (fun r => decide (r.state = s.ref.state_id)))).map
            (List.map (fun r => r.idx)) := by
        rw [List.map_map]
        rfl
      rw [heq, ← List.map_flatten _ _]
      exact (states_filter_perm m.states agents.rows hcover).map _

unseal Rat.add Rat.mul Rat.inv Rat.sub in
/-- Witness for C2's amended statement: one state, one transition to a
distinct target, two agents; the returned rows carry the same labels. -/
theorem machine_transition_preserves_agents_witness :
    ((Cohort.mk ["state"] [Row.mk 0 "b" 0, Row.mk 7 "a" 0]).rows.map
        (fun r => r.idx)).Perm
      ((Cohort.mk ["state"] [Row.mk 0 "a" 0, Row.mk 7 "a" 0]).rows.map
        (fun r => r.idx)) :=
  machine_transition_preserves_agents
    (Machine.mk "state" [State.mk ⟨0, "a"⟩
      (TransitionSet.mk true [Transition.mk ⟨1, "b"⟩ (fun _ _ => 1/2)])])
    (fun i => if i = 0 then 1/4 else 3/4)
    (Cohort.mk ["state"] [Row.mk 0 "a" 0, Row.mk 7 "a" 0])
    (Cohort.mk ["state"] [Row.mk 0 "b" 0, Row.mk 7 "a" 0])
    (by decide) (by decide) (by decide)

unseal Rat.add Rat.mul Rat.inv Rat.sub in
/-- Counterexample to C2 as stated: a machine satisfying the claim's
coverage hypothesis whose single state has two transitions to the **same**
target state object.  The groups dictionary keyed by output objects
overwrites the first group with the second, and `Machine.transition`
returns only agent 11 — agent 10 is silently dropped. -/
theorem machine_transition_drop_counterexample :
    (∀ r ∈ (Cohort.mk ["state"] [Row.mk 10 "a" 0, Row.mk 11 "a" 0]).rows,
      ((Machine.mk "state" [State.mk ⟨0, "a"⟩ (TransitionSet.mk true
          [Transition.mk ⟨1, "b"⟩ (fun _ p => if p = 0 then 1 else 0),
           Transition.mk ⟨1, "b"⟩ (fun _ p => if p = 0 then 0 else 1)])]).states.filter
        (fun s => decide (r.state = s.ref.state_id))).length = 1) ∧
    (Machine.mk "state" [State.mk ⟨0, "a"⟩ (TransitionSet.mk true
        [Transition.mk ⟨1, "b"⟩ (fun _ p => if p = 0 then 1 else 0),
         Transition.mk ⟨1, "b"⟩ (fun _ p => if p = 0 then 0 else 1)])]).transition
      (fun _ => 1/2) (Cohort.mk ["state"] [Row.mk 10 "a" 0, Row.mk 11 "a" 0])
      = .ok (Cohort.mk ["state"] [Row.mk 11 "b" 0]) :=
  ⟨by decide, by decide⟩
